import Mathlib

/-! TclX utility functions (`tclXutil.c`), keyed lists and handle tables: a shallow
embedding.

C strings are modelled by their character list.  Reading at or beyond the end
of the list yields the terminating NUL, so a NUL stored inside the list acts as
the terminator exactly as it does in C.  Pointers into a string are offsets
from its first character.  `long` and `unsigned long` are 64 bits wide, `int`
and `unsigned` 32 bits (LP64).  The C library functions the code calls
(`strtol`, `strtoul`, `isspace`, `isupper`, `islower`, `tolower`, `toupper`)
follow ISO C in the "C" locale.

The case-shifting functions store through a pointer and are modelled over a
byte-addressed memory.  The keyed-list and handle-table functions, of which the
sources hold the declarations only, are modelled from the specification.
-/

namespace TclX

/-! ## Characters and the C library -/

/-- The NUL character that terminates a C string. -/
def NUL : Char := Char.ofNat 0

/-- The C library `isspace` in the "C" locale: space, `\t`, `\n`, `\v`, `\f`, `\r`. -/
def isspace (c : Char) : Bool :=
  c.toNat = 32 || (9 ≤ c.toNat && c.toNat ≤ 13)

/-- The C library `isupper` in the "C" locale. -/
def isupper (c : Char) : Bool := 65 ≤ c.toNat && c.toNat ≤ 90

/-- The C library `islower` in the "C" locale. -/
def islower (c : Char) : Bool := 97 ≤ c.toNat && c.toNat ≤ 122

/-- The C library `tolower` applied to an upper-case letter. -/
def tolower (c : Char) : Char := Char.ofNat (c.toNat + 32)

/-- The C library `toupper` applied to a lower-case letter. -/
def toupper (c : Char) : Char := Char.ofNat (c.toNat - 32)

/-- The character a pointer at offset `i` of the C string `s` addresses. -/
def charAt (s : List Char) (i : Nat) : Char := s.getD i NUL

/-- The C string stored in `s`: the characters before the first NUL. -/
def cstr (s : List Char) : List Char := s.takeWhile (fun c => c != NUL)

/-- The value of `c` as a digit (`0-9`, then letters of either case from 10 on). -/
def digitVal (c : Char) : Option Nat :=
  if 48 ≤ c.toNat ∧ c.toNat ≤ 57 then some (c.toNat - 48)
  else if 97 ≤ c.toNat ∧ c.toNat ≤ 122 then some (c.toNat - 97 + 10)
  else if 65 ≤ c.toNat ∧ c.toNat ≤ 90 then some (c.toNat - 65 + 10)
  else none

/-- Whether `c` is a digit of base `b`. -/
def isDigitOf (b : Nat) (c : Char) : Bool :=
  match digitVal c with
  | some d => decide (d < b)
  | none => false

/-- The number a run of digits denotes in base `b`. -/
def digitsVal (b : Nat) (ds : List Char) : Nat :=
  ds.foldl (fun acc c => acc * b + (digitVal c).getD 0) 0

def LONG_MAX : Int := 2 ^ 63 - 1
def LONG_MIN : Int := -(2 ^ 63)
def ULONG_MAX : Nat := 2 ^ 64 - 1

/-- The subject sequence `strtol` and `strtoul` look for (ISO C 7.20.1.4):
leading white space, an optional sign, an optional `0x`/`0X` when the base is
16 or 0, then the longest run of digits of the base.  With base 0 a leading
`0x` selects base 16, a leading `0` base 8, anything else base 10.  The result
is `none` when there is no digit (no conversion), or else the sign, the
magnitude and the offset of the first character after the digits. -/
def scanInteger (s : List Char) (base : Nat) : Option (Bool × Nat × Nat) :=
  if base = 1 ∨ 36 < base then none else
  let nws := (s.takeWhile isspace).length
  let r1 := s.drop nws
  let neg := r1.head? = some '-'
  let nsign := if r1.head? = some '-' ∨ r1.head? = some '+' then 1 else 0
  let r2 := r1.drop nsign
  let hex := (base = 0 ∨ base = 16) ∧ r2.head? = some '0'
    ∧ ((r2.drop 1).head? = some 'x' ∨ (r2.drop 1).head? = some 'X')
    ∧ ((r2.drop 2).head?.map (isDigitOf 16)) = some true
  let b := if hex then 16 else if base = 0 then (if r2.head? = some '0' then 8 else 10) else base
  let npre := if hex then 2 else 0
  let ds := (r2.drop npre).takeWhile (isDigitOf b)
  if ds = [] then none
  else some (decide neg, digitsVal b ds, nws + nsign + npre + ds.length)

/-- The C library `strtol`: the converted value, clamped to the range of
`long`, and the end pointer; with no conversion the value is 0 and the end
pointer is the start of the string. -/
def strtol (s : List Char) (base : Nat) : Int × Nat :=
  match scanInteger s base with
  | none => (0, 0)
  | some (neg, v, e) =>
    let x : Int := if neg then -(v : Int) else (v : Int)
    (if x < LONG_MIN then LONG_MIN else if LONG_MAX < x then LONG_MAX else x, e)

/-- The C library `strtoul`: as `strtol`, the value being `ULONG_MAX` when the
magnitude is out of range and negated in `unsigned long` after a minus sign. -/
def strtoul (s : List Char) (base : Nat) : Nat × Nat :=
  match scanInteger s base with
  | none => (0, 0)
  | some (neg, v, e) =>
    (if ULONG_MAX < v then ULONG_MAX else if neg then (2 ^ 64 - v) % 2 ^ 64 else v, e)

/-- The loop `while ((*end != '\0') && isspace(*end)) end++;`. -/
def skipSpace (s : List Char) (e : Nat) : Nat :=
  e + ((s.drop e).takeWhile (fun c => c != NUL && isspace c)).length

/-! ## String to number conversion -/

def FALSE : Int := 0
def TRUE : Int := 1

/-- `Tcl_StrToLong (string, base, longPtr)`: the returned flag and the content
of `*longPtr` after the call, `longOld` being its content before. -/
def Tcl_StrToLong (string : List Char) (base : Nat) (longOld : Int) : Int × Int :=
  let (num, end0) := strtol string base
  let end1 := skipSpace string end0
  if end1 = 0 ∨ charAt string end1 ≠ NUL then (FALSE, longOld)
  else (TRUE, num)

/-- The conversion of a `long` to `int` (two's complement wrap to 32 bits). -/
def toInt32 (x : Int) : Int := (x + 2 ^ 31) % 2 ^ 32 - 2 ^ 31

/-- `Tcl_StrToInt (string, base, intPtr)`: the returned flag and the content of
`*intPtr` after the call, `intOld` being its content before. -/
def Tcl_StrToInt (string : List Char) (base : Nat) (intOld : Int) : Int × Int :=
  let (num, end0) := strtol string base
  let end1 := skipSpace string end0
  if end1 = 0 ∨ charAt string end1 ≠ NUL then (FALSE, intOld)
  else (TRUE, toInt32 num)

/-- `Tcl_StrToUnsigned (string, base, unsignedPtr)`: the returned flag and the
content of `*unsignedPtr` after the call, `unsignedOld` being its content
before. -/
def Tcl_StrToUnsigned (string : List Char) (base : Nat) (unsignedOld : Nat) : Int × Nat :=
  let (num, end0) := strtoul string base
  let end1 := skipSpace string end0
  if end1 = 0 ∨ charAt string end1 ≠ NUL then (FALSE, unsignedOld)
  else (TRUE, num % 2 ^ 32)

/-! ## Conversions reporting through the interpreter result -/

def TCL_OK : Int := 0
def TCL_ERROR : Int := 1

/-- The Tcl library `Tcl_AppendResult (interp, a, b, c, NULL)`: the interpreter
result with the three C strings appended. -/
def Tcl_AppendResult (result a b c : List Char) : List Char :=
  result ++ cstr a ++ cstr b ++ cstr c

/-- `Tcl_GetLong (interp, string, longPtr)`: the returned status, the
interpreter result and the content of `*longPtr` after the call. -/
def Tcl_GetLong (result : List Char) (string : List Char) (longOld : Int) :
    Int × List Char × Int :=
  let (i, end0) := strtol string 0
  let end1 := skipSpace string end0
  if end1 = 0 ∨ charAt string end1 ≠ NUL then
    (TCL_ERROR, Tcl_AppendResult result "expected integer but got \"".toList string ['"'], longOld)
  else (TCL_OK, result, i)

/-- `Tcl_GetUnsigned (interp, string, unsignedPtr)`: the returned status, the
interpreter result and the content of `*unsignedPtr` after the call.  The
pointer `string` is first advanced over white space; the end pointer is
compared with, and the message quotes, the advanced pointer. -/
def Tcl_GetUnsigned (result : List Char) (string : List Char) (unsignedOld : Nat) :
    Int × List Char × Nat :=
  let string1 := string.dropWhile isspace
  let bad := (TCL_ERROR,
    Tcl_AppendResult result "expected unsigned integer but got \"".toList string1 ['"'],
    unsignedOld)
  if charAt string1 0 = '-' then bad
  else
    let (i, end0) := strtoul string1 0
    let end1 := skipSpace string1 end0
    if end1 = 0 ∨ charAt string1 end1 ≠ NUL then bad
    else (TCL_OK, result, i % 2 ^ 32)

/-! ## Case shifting

The shift functions write through `targetStr`, which may address the source
itself, so they are modelled over a byte-addressed memory. -/

/-- Byte-addressed memory; pointers are addresses. -/
abbrev Mem := Nat → Char

/-- The assignment `*p = c`. -/
def Mem.store (m : Mem) (p : Nat) (c : Char) : Mem := fun a => if a = p then c else m a

/-- The characters of the `n` cells from address `p` on. -/
def Mem.read (m : Mem) (p n : Nat) : List Char := (List.range n).map (fun i => m (p + i))

/-- The `for` loop of `Tcl_DownShift` followed by the two statements after it,
the loop body being run at most `fuel` times: the memory and the returned
pointer, or `none` when the fuel runs out. -/
def downShiftLoop : Nat → Mem → Nat → Nat → Option (Mem × Nat)
  | 0, _, _, _ => none
  | fuel + 1, m, targetStr, sourceStr =>
    let theChar := m sourceStr
    if theChar = NUL then some (m.store targetStr NUL, targetStr)
    else
      let theChar := if isupper theChar then tolower theChar else theChar
      downShiftLoop fuel (m.store targetStr theChar) (targetStr + 1) (sourceStr + 1)

/-- `Tcl_DownShift (targetStr, sourceStr)`; `targetStr = none` is the NULL
pointer and `newBlock` the address `ckalloc` returns in that case. -/
def Tcl_DownShift (fuel newBlock : Nat) (m : Mem) (targetStr : Option Nat) (sourceStr : Nat) :
    Option (Mem × Nat) :=
  let targetStr := match targetStr with
    | none => newBlock
    | some t => t
  downShiftLoop fuel m targetStr sourceStr

/-- The `for` loop of `Tcl_UpShift` followed by the two statements after it,
the loop body being run at most `fuel` times. -/
def upShiftLoop : Nat → Mem → Nat → Nat → Option (Mem × Nat)
  | 0, _, _, _ => none
  | fuel + 1, m, targetStr, sourceStr =>
    let theChar := m sourceStr
    if theChar = NUL then some (m.store targetStr NUL, targetStr)
    else
      let theChar := if islower theChar then toupper theChar else theChar
      upShiftLoop fuel (m.store targetStr theChar) (targetStr + 1) (sourceStr + 1)

/-- `Tcl_UpShift (targetStr, sourceStr)`; `targetStr = none` is the NULL
pointer and `newBlock` the address `ckalloc` returns in that case. -/
def Tcl_UpShift (fuel newBlock : Nat) (m : Mem) (targetStr : Option Nat) (sourceStr : Nat) :
    Option (Mem × Nat) :=
  let targetStr := match targetStr with
    | none => newBlock
    | some t => t
  upShiftLoop fuel m targetStr sourceStr

/-- A memory holding the C string `s` at address `p` and NUL everywhere else. -/
def Mem.ofString (p : Nat) (s : List Char) : Mem :=
  fun a => if a < p then NUL else s.getD (a - p) NUL

/-! ## The words of the documentation -/

/-- The white-space characters. -/
def whiteSpace : List Char := [' ', '\t', '\n', Char.ofNat 11, Char.ofNat 12, '\r']

/-- A string that is a valid number in `base`: optional leading white space, an
optional sign, at least one digit of the base after any base prefix (`0x` or
`0X` for base 16; with base 0 that prefix announces base 16, a leading `0`
base 8, any other digit base 10), then only white space. -/
def ValidNumber (base : Nat) (s : List Char) : Prop :=
  ∃ lead sign pre ds trail : List Char, ∃ b : Nat,
    s = lead ++ sign ++ pre ++ ds ++ trail ∧
    (∀ c ∈ lead, c ∈ whiteSpace) ∧
    (sign = [] ∨ sign = ['+'] ∨ sign = ['-']) ∧
    ((pre = [] ∧ b = base ∧ base ≠ 0) ∨
     ((pre = ['0', 'x'] ∨ pre = ['0', 'X']) ∧ b = 16 ∧ (base = 16 ∨ base = 0)) ∨
     (pre = [] ∧ b = 8 ∧ base = 0 ∧ ds.head? = some '0') ∨
     (pre = [] ∧ b = 10 ∧ base = 0 ∧ ds.head? ≠ some '0')) ∧
    ds ≠ [] ∧ (∀ c ∈ ds, isDigitOf b c = true) ∧
    (∀ c ∈ trail, c ∈ whiteSpace)

/-- The decimal digits. -/
def decimalDigits : List Char := ['0', '1', '2', '3', '4', '5', '6', '7', '8', '9']

/-- The integer a run of decimal digits denotes. -/
def decimalValue (ds : List Char) : Int :=
  ds.foldl (fun n c => 10 * n + ((c.toNat : Int) - 48)) 0

/-- The integer an optional sign followed by decimal digits denotes. -/
def signedValue (sign ds : List Char) : Int :=
  if sign = ['-'] then -decimalValue ds else decimalValue ds

/-! ## Keyed lists

The keyed-list functions are declared in `tclExtend.h`; their bodies are not
part of the sources at hand and are modelled from the specification. -/

/-- Modelled from the spec: the host list-literal tokenizer and quoting
primitives, which the keyed-list engine consumes as a black box: `split`
decodes a list text into its elements (`none` for a malformed list) and `merge`
encodes elements into a list text. -/
structure ListCodec where
  split : List Char → Option (List (List Char))
  merge : List (List Char) → List Char

/-- Modelled from the spec: the encode/decode contract of the host list
primitives, `split` giving back the elements that `merge` encoded. -/
def ListCodec.Lawful (codec : ListCodec) : Prop :=
  ∀ xs : List (List Char), codec.split (codec.merge xs) = some xs

/-- Modelled from the spec: the key and value of one pair text, a 2-element
list; an element count other than 2 is malformed. -/
def decodePair (codec : ListCodec) (pair : List Char) : Option (List Char × List Char) :=
  match codec.split pair with
  | some [key, value] => some (key, value)
  | _ => none

/-- Modelled from the spec: the decoding of every pair text of one level; one
malformed pair makes the level malformed. -/
def decodePairs (codec : ListCodec) : List (List Char) → Option (List (List Char × List Char))
  | [] => some []
  | pair :: rest =>
    match decodePair codec pair, decodePairs codec rest with
    | some kv, some kvs => some (kv :: kvs)
    | _, _ => none

/-- Modelled from the spec: the shared parsing contract of the keyed-list
operations, decoding one level of a keyed-list text as a list of 2-element
sub-lists; `none` is `MalformedKeyedList`. -/
def decodeLevel (codec : ListCodec) (keyedList : List Char) :
    Option (List (List Char × List Char)) :=
  match codec.split keyedList with
  | some pairs => decodePairs codec pairs
  | none => none

/-- Modelled from the spec: the text of one level, a list of 2-element lists
`key value` in pair order. -/
def encodeLevel (codec : ListCodec) (pairs : List (List Char × List Char)) : List Char :=
  codec.merge (pairs.map (fun kv => codec.merge [kv.1, kv.2]))

/-- Modelled from the spec: the segments of a field path, separated by single
dots; an empty segment is a zero-length key. -/
def splitPath : List Char → List (List Char)
  | [] => [[]]
  | c :: cs =>
    if c = '.' then [] :: splitPath cs
    else
      match splitPath cs with
      | seg :: rest => (c :: seg) :: rest
      | [] => [[c]]

/-- Modelled from the spec: the linear scan of the pair sequence for a key equal
to the segment, giving the value of the first pair with that key. -/
def findField (key : List Char) : List (List Char × List Char) → Option (List Char)
  | [] => none
  | (k, v) :: rest => if k = key then some v else findField key rest

/-- Modelled from the spec: the value of the pair with the key replaced in
place, or else a new pair appended at that level. -/
def putField (key value : List Char) :
    List (List Char × List Char) → List (List Char × List Char)
  | [] => [(key, value)]
  | (k, v) :: rest =>
    if k = key then (k, value) :: rest else (k, v) :: putField key value rest

/-- Modelled from the spec: the pair with the key removed, the remaining order
preserved. -/
def dropField (key : List Char) : List (List Char × List Char) → List (List Char × List Char)
  | [] => []
  | (k, v) :: rest => if k = key then rest else (k, v) :: dropField key rest

/-- Modelled from the spec: the three outcomes of `Get`. -/
inductive ValueResult where
  | Found (valueText : List Char)
  | NotFound
  | MalformedKeyedList
  deriving DecidableEq

/-- Modelled from the spec: the outcomes of `Set` and `Delete`, a new
keyed-list text or no text. -/
inductive TextResult where
  | NewText (keyedList : List Char)
  | NotFound
  | MalformedKeyedList
  deriving DecidableEq

/-- Modelled from the spec: the resolution of the segments of a path, level by
level: `MalformedKeyedList` when a level does not decode, `NotFound` when a
segment is absent at its level. -/
def getSegments (codec : ListCodec) : List (List Char) → List Char → ValueResult
  | [], keyedList => ValueResult.Found keyedList
  | seg :: rest, keyedList =>
    match decodeLevel codec keyedList with
    | none => ValueResult.MalformedKeyedList
    | some pairs =>
      match findField seg pairs with
      | none => ValueResult.NotFound
      | some value => getSegments codec rest value

/-- Modelled from the spec: `Get(keyedListText, path)`, the body of
`Tcl_GetKeyedListField`, which is missing: the path is split on `.` and each
segment looked up at its level; an empty path denotes the whole list. -/
def Tcl_GetKeyedListField (codec : ListCodec) (fieldName keyedList : List Char) : ValueResult :=
  if fieldName = [] then ValueResult.Found keyedList
  else getSegments codec (splitPath fieldName) keyedList

/-- Modelled from the spec: the update along the segments of a path; a segment
that does not exist yet stands for an empty nested keyed list. -/
def setSegments (codec : ListCodec) : List (List Char) → List Char → List Char → TextResult
  | [], fieldvalue, _ => TextResult.NewText fieldvalue
  | seg :: rest, fieldvalue, keyedList =>
    match decodeLevel codec keyedList with
    | none => TextResult.MalformedKeyedList
    | some pairs =>
      match setSegments codec rest fieldvalue ((findField seg pairs).getD []) with
      | TextResult.NewText value => TextResult.NewText (encodeLevel codec (putField seg value pairs))
      | other => other

/-- Modelled from the spec: `Set(keyedListText, path, newValueText)`, the body
of `Tcl_SetKeyedListField`, which is missing: the value of the last segment is
replaced in place or a new pair appended, missing intermediate keyed lists are
created, and a new text is composed. -/
def Tcl_SetKeyedListField (codec : ListCodec) (fieldName fieldvalue keyedList : List Char) :
    TextResult :=
  setSegments codec (splitPath fieldName) fieldvalue keyedList

/-- Modelled from the spec: the deletion along the segments of a path; an
emptied nested list stays in place under its key. -/
def deleteSegments (codec : ListCodec) : List (List Char) → List Char → TextResult
  | [], _ => TextResult.NotFound
  | seg :: rest, keyedList =>
    match decodeLevel codec keyedList with
    | none => TextResult.MalformedKeyedList
    | some pairs =>
      match findField seg pairs with
      | none => TextResult.NotFound
      | some value =>
        match rest with
        | [] => TextResult.NewText (encodeLevel codec (dropField seg pairs))
        | _ :: _ =>
          match deleteSegments codec rest value with
          | TextResult.NewText newValue =>
            TextResult.NewText (encodeLevel codec (putField seg newValue pairs))
          | other => other

/-- Modelled from the spec: `Delete(keyedListText, path)`, the body of
`Tcl_DeleteKeyedListField`, which is missing: the pair of the final segment is
removed at its parent level, `NotFound` when it is absent. -/
def Tcl_DeleteKeyedListField (codec : ListCodec) (fieldName keyedList : List Char) :
    TextResult :=
  deleteSegments codec (splitPath fieldName) keyedList

/-- Modelled from the spec: the invariant of a keyed list, keys unique at a
nesting level, checked at the levels a path goes through. -/
def keysUniqueAlong (codec : ListCodec) : List (List Char) → List Char → Bool
  | [], _ => true
  | seg :: rest, keyedList =>
    match decodeLevel codec keyedList with
    | none => false
    | some pairs =>
      decide (pairs.map Prod.fst).Nodup &&
      match findField seg pairs with
      | none => true
      | some value => keysUniqueAlong codec rest value

/-- Modelled from the spec: a keyed list in which every level a path goes
through decodes as a list of pairs, as far as the segments of the path exist;
the value of the last segment is not looked into. -/
def levelsDecode (codec : ListCodec) : List (List Char) → List Char → Bool
  | [], _ => true
  | seg :: rest, keyedList =>
    match decodeLevel codec keyedList with
    | none => false
    | some pairs =>
      match findField seg pairs with
      | none => true
      | some value => levelsDecode codec rest value

/-! ### A list grammar -/

/-- Modelled from the spec: the characters that are significant in a list text,
white space, braces and the backslash. -/
def isSpecial (c : Char) : Bool := isspace c || c = '{' || c = '}' || c = '\\'

/-- Modelled from the spec: the states of the scanner of a list text. -/
inductive ScanState where
  | gap
  | bare
  | bareEscape
  | braced (depth : Nat)
  | bracedEscape (depth : Nat)
  | closed

/-- Modelled from the spec: the character `c` put in front of the element being
scanned. -/
def pushChar (c : Char) : List (List Char) → List (List Char)
  | [] => [[c]]
  | x :: xs => (c :: x) :: xs

/-- Modelled from the spec: the host list grammar, elements separated by white
space, an element being a bare word, in which a backslash quotes the next
character, or a text wrapped in matching braces and followed by white space or
the end.  In every state but `gap` the first list of the result is the rest of
the element being scanned. -/
def scanList : ScanState → List Char → Option (List (List Char))
  | ScanState.gap, [] => some []
  | ScanState.gap, c :: cs =>
    if isspace c then scanList ScanState.gap cs
    else if c = '{' then scanList (ScanState.braced 0) cs
    else if c = '\\' then scanList ScanState.bareEscape cs
    else (scanList ScanState.bare cs).map (pushChar c)
  | ScanState.bare, [] => some [[]]
  | ScanState.bare, c :: cs =>
    if isspace c then (scanList ScanState.gap cs).map (fun xs => [] :: xs)
    else if c = '\\' then scanList ScanState.bareEscape cs
    else (scanList ScanState.bare cs).map (pushChar c)
  | ScanState.bareEscape, [] => some [['\\']]
  | ScanState.bareEscape, c :: cs => (scanList ScanState.bare cs).map (pushChar c)
  | ScanState.braced _, [] => none
  | ScanState.braced depth, c :: cs =>
    if c = '{' then (scanList (ScanState.braced (depth + 1)) cs).map (pushChar c)
    else if c = '}' then
      match depth with
      | 0 => scanList ScanState.closed cs
      | d + 1 => (scanList (ScanState.braced d) cs).map (pushChar c)
    else if c = '\\' then (scanList (ScanState.bracedEscape depth) cs).map (pushChar c)
    else (scanList (ScanState.braced depth) cs).map (pushChar c)
  | ScanState.bracedEscape _, [] => none
  | ScanState.bracedEscape depth, c :: cs =>
    (scanList (ScanState.braced depth) cs).map (pushChar c)
  | ScanState.closed, [] => some [[]]
  | ScanState.closed, c :: cs =>
    if isspace c then (scanList ScanState.gap cs).map (fun xs => [] :: xs) else none

/-- Modelled from the spec: the brace nesting depth after `cs`, starting from
`depth`; `none` when a closing brace has no opening one. -/
def braceDepth : Nat → List Char → Option Nat
  | depth, [] => some depth
  | depth, c :: cs =>
    if c = '{' then braceDepth (depth + 1) cs
    else if c = '}' then
      match depth with
      | 0 => none
      | d + 1 => braceDepth d cs
    else braceDepth depth cs

/-- Modelled from the spec: an element with every significant character quoted
by a backslash. -/
def escapeElement : List Char → List Char
  | [] => []
  | c :: cs => if isSpecial c then '\\' :: c :: escapeElement cs else c :: escapeElement cs

/-- Modelled from the spec: the text of one element: an element containing
white space or significant characters is wrapped in matching braces, or
escaped when its braces do not match or it holds a backslash. -/
def quoteElement (x : List Char) : List Char :=
  if x = [] then ['{', '}']
  else if x.any isSpecial ∧ braceDepth 0 x = some 0 ∧ '\\' ∉ x then '{' :: x ++ ['}']
  else escapeElement x

/-- Modelled from the spec: the list text of the elements, each quoted, separated
by one space. -/
def mergeList : List (List Char) → List Char
  | [] => []
  | [x] => quoteElement x
  | x :: y :: ys => quoteElement x ++ ' ' :: mergeList (y :: ys)

/-- Modelled from the spec: the list grammar of the host, as a codec. -/
def tclCodec : ListCodec where
  split := scanList ScanState.gap
  merge := mergeList

/-! ## Handle tables

The handle-table functions are declared in `tclExtend.h`; their bodies are not
part of the sources at hand and are modelled from the specification.  A pointer
to an entry of a table is modelled by the index of its slot. -/

/-- Modelled from the spec: an entry of a handle table, the opaque payload the
caller owns and the occupancy flag. -/
structure HandleEntry where
  payload : List Nat
  occupied : Bool
  deriving DecidableEq

/-- Modelled from the spec: a handle table, its base name, the size of an
entry, the ordered array of slots, the free-slot list, the live-entry count
and the shared-use counter. -/
structure HandleTable where
  handleBase : List Char
  entrySize : Nat
  slots : List HandleEntry
  freeList : List Nat
  liveCount : Nat
  useCount : Int
  deriving DecidableEq

/-- Modelled from the spec: a slot that is free, its payload zeroed. -/
def freeEntry (entrySize : Nat) : HandleEntry :=
  { payload := List.replicate entrySize 0, occupied := false }

/-- Modelled from the spec: a slot just allocated, marked occupied, its payload
zero-initialized. -/
def newEntry (entrySize : Nat) : HandleEntry :=
  { payload := List.replicate entrySize 0, occupied := true }

/-- Modelled from the spec: `Init(prefix, entrySize, initialCapacity)`, the body
of `Tcl_HandleTblInit`, which is missing: a table of `initEntries` free slots,
all on the free list, lowest index first. -/
def Tcl_HandleTblInit (handleBase : List Char) (entrySize initEntries : Nat) : HandleTable :=
  { handleBase := handleBase
    entrySize := entrySize
    slots := List.replicate initEntries (freeEntry entrySize)
    freeList := List.range initEntries
    liveCount := 0
    useCount := 1 }

/-- Modelled from the spec: the handle string of a slot, the base name followed
by the decimal index of the slot. -/
def handleString (handleBase : List Char) (entryIdx : Nat) : List Char :=
  handleBase ++ Nat.toDigits 10 entryIdx

/-- Modelled from the spec: `Alloc(table)`, the body of `Tcl_HandleAlloc`, which
is missing: the first slot of the free list, or, when none is free, the first
slot the array gains on growing to twice its size (one slot for an empty
array), the other new slots going on the free list.  The slot is marked
occupied and its payload zeroed.  The result is the table after the call, the
entry and the handle string. -/
def Tcl_HandleAlloc (table : HandleTable) : HandleTable × Nat × List Char :=
  match table.freeList with
  | entryIdx :: rest =>
    ({ table with
        slots := table.slots.set entryIdx (newEntry table.entrySize)
        freeList := rest
        liveCount := table.liveCount + 1 },
     entryIdx, handleString table.handleBase entryIdx)
  | [] =>
    let size := table.slots.length
    let added := if size = 0 then 1 else size
    ({ table with
        slots := table.slots ++ newEntry table.entrySize ::
          List.replicate (added - 1) (freeEntry table.entrySize)
        freeList := List.range' (size + 1) (added - 1)
        liveCount := table.liveCount + 1 },
     size, handleString table.handleBase size)

/-- Modelled from the spec: `Free(table, slotPointer)`, the body of
`Tcl_HandleFree`, which is missing: the slot is marked free and pushed on the
free list; its payload is left as it is. -/
def Tcl_HandleFree (table : HandleTable) (entryIdx : Nat) : HandleTable :=
  { table with
    slots := table.slots.set entryIdx
      { payload := (table.slots.getD entryIdx (freeEntry table.entrySize)).payload
        occupied := false }
    freeList := entryIdx :: table.freeList
    liveCount := table.liveCount - 1 }

/-- Modelled from the spec: the index a numeric suffix denotes, one or more
decimal digits; `none` when the suffix is not of that form. -/
def parseIndex (suffix : List Char) : Option Nat :=
  if suffix ≠ [] ∧ ∀ c ∈ suffix, 48 ≤ c.toNat ∧ c.toNat ≤ 57 then
    some (suffix.foldl (fun n c => 10 * n + (c.toNat - 48)) 0)
  else none

/-- Modelled from the spec: the outcomes of `Xlate`, the entry or one of the two
errors. -/
inductive XlateResult where
  | Entry (entryIdx : Nat)
  | InvalidHandle
  | StaleHandle
  deriving DecidableEq

/-- Modelled from the spec: `Xlate(table, handleString)`, the body of
`Tcl_HandleXlate`, which is missing: `InvalidHandle` when the string is not the
base name followed by an index, `StaleHandle` when the index is out of range or
the slot is not occupied, or else the entry. -/
def Tcl_HandleXlate (table : HandleTable) (handle : List Char) : XlateResult :=
  if handle.take table.handleBase.length ≠ table.handleBase then XlateResult.InvalidHandle
  else
    match parseIndex (handle.drop table.handleBase.length) with
    | none => XlateResult.InvalidHandle
    | some entryIdx =>
      match table.slots[entryIdx]? with
      | none => XlateResult.StaleHandle
      | some entry =>
        if entry.occupied then XlateResult.Entry entryIdx else XlateResult.StaleHandle

/-- A call of `Tcl_HandleAlloc` or of `Tcl_HandleFree` on a table. -/
inductive HandleCall where
  | alloc
  | free (entryIdx : Nat)
  deriving DecidableEq

/-- The table after a call. -/
def applyCall (table : HandleTable) : HandleCall → HandleTable
  | HandleCall.alloc => (Tcl_HandleAlloc table).1
  | HandleCall.free entryIdx => Tcl_HandleFree table entryIdx

/-- The table after a sequence of calls. -/
def applyCalls (table : HandleTable) : List HandleCall → HandleTable
  | [] => table
  | call :: calls => applyCalls (applyCall table call) calls

/-- A sequence of calls in which every `Tcl_HandleFree` is given a pointer to a
slot of the table. -/
def validCalls (table : HandleTable) : List HandleCall → Bool
  | [] => true
  | HandleCall.alloc :: calls => validCalls (applyCall table HandleCall.alloc) calls
  | HandleCall.free entryIdx :: calls =>
    decide (entryIdx < table.slots.length) &&
      validCalls (applyCall table (HandleCall.free entryIdx)) calls

/-- A sequence of calls in which no `Tcl_HandleAlloc` returns the entry
`entryIdx`. -/
def neverAllocates (entryIdx : Nat) (table : HandleTable) : List HandleCall → Bool
  | [] => true
  | HandleCall.alloc :: calls =>
    decide ((Tcl_HandleAlloc table).2.1 ≠ entryIdx) &&
      neverAllocates entryIdx (applyCall table HandleCall.alloc) calls
  | HandleCall.free freed :: calls =>
    neverAllocates entryIdx (applyCall table (HandleCall.free freed)) calls

/-- The free list names slots of the table only. -/
def freeListInRange (table : HandleTable) : Prop :=
  ∀ j ∈ table.freeList, j < table.slots.length

/-- Whether the slot `entryIdx` of the table exists and is occupied. -/
def slotOccupied (table : HandleTable) (entryIdx : Nat) : Bool :=
  match table.slots[entryIdx]? with
  | none => false
  | some entry => entry.occupied

/-! ## Lemmas on characters and scanning -/

theorem isspace_of_mem {c : Char} (h : c ∈ whiteSpace) : isspace c = true := by
  simp only [whiteSpace, List.mem_cons, List.mem_singleton, List.not_mem_nil, or_false] at h
  rcases h with h | h | h | h | h | h <;> subst h <;> decide

theorem digit_bounds {c : Char} (h : c ∈ decimalDigits) : 48 ≤ c.toNat ∧ c.toNat ≤ 57 := by
  simp only [decimalDigits, List.mem_cons, List.mem_singleton, List.not_mem_nil, or_false] at h
  rcases h with h | h | h | h | h | h | h | h | h | h <;> subst h <;> decide

theorem isDigitOf_of_bounds {c : Char} (h : 48 ≤ c.toNat ∧ c.toNat ≤ 57) :
    isDigitOf 10 c = true := by
  have : c.toNat - 48 < 10 := by omega
  simp [isDigitOf, digitVal, h, this]

theorem digitVal_of_bounds {c : Char} (h : 48 ≤ c.toNat ∧ c.toNat ≤ 57) :
    digitVal c = some (c.toNat - 48) := by
  simp [digitVal, h]

theorem not_isDigitOf_of_isspace {c : Char} (b : Nat) (h : isspace c = true) :
    isDigitOf b c = false := by
  have h1 : c.toNat = 32 ∨ (9 ≤ c.toNat ∧ c.toNat ≤ 13) := by simpa [isspace] using h
  have h2 : digitVal c = none := by
    unfold digitVal
    rw [if_neg (by omega), if_neg (by omega), if_neg (by omega)]
  simp [isDigitOf, h2]

theorem toNat_ne_of_ne {c d : Char} (h : c.toNat ≠ d.toNat) : c ≠ d := by
  intro e; exact h (by rw [e])

theorem isspace_ne_NUL {c : Char} (h : isspace c = true) : (c != NUL) = true := by
  have h1 : c.toNat = 32 ∨ (9 ≤ c.toNat ∧ c.toNat ≤ 13) := by simpa [isspace] using h
  have h0 : NUL.toNat = 0 := by decide
  simp only [bne_iff_ne, ne_eq]
  exact toNat_ne_of_ne (by omega)

theorem digitsVal_decimal (ds : List Char) (h : ∀ c ∈ ds, 48 ≤ c.toNat ∧ c.toNat ≤ 57)
    (acc : Nat) :
    ((ds.foldl (fun acc c => acc * 10 + (digitVal c).getD 0) acc : Nat) : Int)
      = ds.foldl (fun n c => 10 * n + ((c.toNat : Int) - 48)) (acc : Int) := by
  induction ds generalizing acc with
  | nil => rfl
  | cons d ds ih =>
    have hd := h d (List.mem_cons_self _ _)
    simp only [List.foldl_cons]
    rw [ih (fun c hc => h c (List.mem_cons_of_mem _ hc))]
    congr 1
    rw [digitVal_of_bounds hd]
    simp only [Option.getD_some]
    push_cast
    omega

/-- On white space, an optional sign, decimal digits and white space, the scan
in base 10 finds the sign and the digits and stops right after them. -/
theorem scanInteger_decimal (lead sign ds trail : List Char)
    (hlead : ∀ c ∈ lead, isspace c = true)
    (hsign : sign = [] ∨ sign = ['+'] ∨ sign = ['-'])
    (hne : ds ≠ [])
    (hds : ∀ c ∈ ds, 48 ≤ c.toNat ∧ c.toNat ≤ 57)
    (htrail : ∀ c ∈ trail, isspace c = true) :
    scanInteger (lead ++ sign ++ ds ++ trail) 10
      = some (decide (sign = ['-']), digitsVal 10 ds, lead.length + sign.length + ds.length) := by
  obtain ⟨d, ds1, rfl⟩ := List.exists_cons_of_ne_nil hne
  have hd := hds d (List.mem_cons_self _ _)
  have hdsp : isspace d = false := by
    simp [isspace]; omega
  have hdm : d ≠ '-' := toNat_ne_of_ne (by have : ('-' : Char).toNat = 45 := by decide
                                           omega)
  have hdp : d ≠ '+' := toNat_ne_of_ne (by have : ('+' : Char).toNat = 43 := by decide
                                           omega)
  have htk : ((d :: ds1) ++ trail).takeWhile (isDigitOf 10) = d :: ds1 := by
    rw [List.takeWhile_append_of_pos (fun c hc => isDigitOf_of_bounds (hds c hc))]
    cases trail with
    | nil => simp
    | cons t ts =>
      simp [List.takeWhile_cons, not_isDigitOf_of_isspace 10 (htrail t (List.mem_cons_self _ _))]
  have hws : (lead ++ sign ++ (d :: ds1) ++ trail).takeWhile isspace = lead := by
    rw [List.append_assoc, List.append_assoc,
      List.takeWhile_append_of_pos hlead]
    rcases hsign with rfl | rfl | rfl <;> simp [List.takeWhile_cons, hdsp] <;> decide
  unfold scanInteger
  rw [hws]
  dsimp only
  have hdrop : (lead ++ sign ++ (d :: ds1) ++ trail).drop lead.length
      = sign ++ ((d :: ds1) ++ trail) := by
    rw [List.append_assoc, List.append_assoc, List.drop_left]
  rw [hdrop]
  rw [List.cons_append] at htk
  rcases hsign with rfl | rfl | rfl
  · simp [hdm, hdp, htk]
  · simp [htk]
  · simp [htk]


theorem skipSpace_trailing (pre trail : List Char) (htrail : ∀ c ∈ trail, isspace c = true) :
    skipSpace (pre ++ trail) pre.length = (pre ++ trail).length := by
  unfold skipSpace
  rw [List.drop_left]
  have h : trail.takeWhile (fun c => c != NUL && isspace c) = trail := by
    rw [List.takeWhile_eq_self_iff]
    intro c hc
    simp [htrail c hc, isspace_ne_NUL (htrail c hc)]
  rw [h, List.length_append]

theorem charAt_length (s : List Char) : charAt s s.length = NUL := by
  simp [charAt, List.getD]

/-- A string of one space is not a valid number: it holds no digit. -/
theorem not_validNumber_blank (base : Nat) : ¬ ValidNumber base [' '] := by
  rintro ⟨lead, sign, pre, ds, trail, b, hs, -, -, -, hne, hds, -⟩
  obtain ⟨d, ds1, rfl⟩ := List.exists_cons_of_ne_nil hne
  have hd := hds d (List.mem_cons_self _ _)
  have hmem : d ∈ [' '] := by
    rw [hs]; simp
  rw [List.mem_singleton] at hmem
  subst hmem
  have : isDigitOf b ' ' = false := not_isDigitOf_of_isspace b (by decide)
  rw [this] at hd
  exact Bool.noConfusion hd

/-- The shift loops, for any conversion `conv` of a character: when the source
string `s` lies at `src` and the target is not inside the source past its
start, enough fuel gives the converted string at `tgt`, terminated, the cells
outside the target unchanged, and the pointer returned is the one to the
terminator. -/
theorem shiftLoop_spec (conv : Char → Char)
    (loop : Nat → Mem → Nat → Nat → Option (Mem × Nat))
    (hstep : ∀ fuel m t p, loop (fuel + 1) m t p =
      if m p = NUL then some (m.store t NUL, t)
      else loop fuel (m.store t (conv (m p))) (t + 1) (p + 1))
    (s : List Char) (hs : ∀ c ∈ s, c ≠ NUL) :
    ∀ (fuel : Nat) (m : Mem) (tgt src : Nat),
      m.read src s.length = s → m (src + s.length) = NUL →
      (tgt ≤ src ∨ src + s.length < tgt) → s.length < fuel →
      ∃ m', loop fuel m tgt src = some (m', tgt + s.length) ∧
        m'.read tgt s.length = s.map conv ∧ m' (tgt + s.length) = NUL ∧
        ∀ a, a < tgt ∨ tgt + s.length < a → m' a = m a := by
  induction s with
  | nil =>
    intro fuel m tgt src _ hnul _ hfuel
    obtain ⟨k, rfl⟩ : ∃ k, fuel = k + 1 := ⟨fuel - 1, by simp at hfuel; omega⟩
    refine ⟨m.store tgt NUL, ?_, rfl, ?_, ?_⟩
    · rw [hstep]; simp at hnul; simp [hnul]
    · simp [Mem.store]
    · intro a ha
      simp at ha
      simp [Mem.store]
      intro h; omega
  | cons c s ih =>
    intro fuel m tgt src hread hnul hsep hfuel
    obtain ⟨k, rfl⟩ : ∃ k, fuel = k + 1 := ⟨fuel - 1, by simp at hfuel; omega⟩
    have hc : m src = c := by
      have := congrArg List.head? hread
      simpa [Mem.read, List.range_succ_eq_map] using this
    have htl : (List.range s.length).map (fun i => m (src + 1 + i)) = s := by
      have := congrArg List.tail hread
      simpa [Mem.read, List.range_succ_eq_map, Nat.add_assoc, Function.comp_def,
        Nat.add_comm 1] using this
    have hcn : c ≠ NUL := hs c (List.mem_cons_self _ _)
    simp only [List.length_cons] at hnul hsep hfuel
    have hread1 : (m.store tgt (conv c)).read (src + 1) s.length = s := by
      refine Eq.trans ?_ htl
      simp only [Mem.read]
      apply List.map_congr_left
      intro i hi
      have hi2 : i < s.length := List.mem_range.mp hi
      simp only [Mem.store]
      rw [if_neg (by omega)]
    have hnul1 : (m.store tgt (conv c)) (src + 1 + s.length) = NUL := by
      simp only [Mem.store]
      rw [if_neg (by omega)]
      rw [← hnul]; congr 1; omega
    obtain ⟨m1, hrun, hout, hterm, hframe⟩ :=
      ih (fun c hc => hs c (List.mem_cons_of_mem _ hc)) k (m.store tgt (conv c)) (tgt + 1)
        (src + 1) hread1 hnul1 (by omega) (by omega)
    refine ⟨m1, ?_, ?_, ?_, ?_⟩
    · rw [hstep, hc, if_neg hcn, hrun]
      simp only [List.length_cons]
      congr 2; omega
    · have h0 : m1 tgt = conv c := by
        rw [hframe tgt (Or.inl (by omega))]
        simp [Mem.store]
      simp only [Mem.read, List.length_cons, List.range_succ_eq_map, List.map_cons,
        List.map_map, Nat.add_zero, h0]
      congr 1
      refine Eq.trans ?_ hout
      simp only [Mem.read]
      apply List.map_congr_left
      intro i _
      simp only [Function.comp_apply]
      congr 1; omega
    · rw [← hterm]; simp only [List.length_cons]; congr 1; omega
    · intro a ha
      simp only [List.length_cons] at ha
      rw [hframe a (by omega)]
      simp only [Mem.store]
      rw [if_neg (by omega)]

theorem toLower_eq (c : Char) : (if isupper c = true then tolower c else c) = c.toLower := by
  simp [isupper, tolower, Char.toLower]

theorem toUpper_eq (c : Char) : (if islower c = true then toupper c else c) = c.toUpper := by
  simp [islower, toupper, Char.toUpper]

theorem toNat_ofNat_small (n : Nat) (h : n < 55296) : (Char.ofNat n).toNat = n := by
  have hv : n.isValidChar := Or.inl h
  unfold Char.ofNat
  rw [dif_pos hv]
  rfl

theorem toLower_ne_NUL {c : Char} (h : c ≠ NUL) : c.toLower ≠ NUL := by
  unfold Char.toLower
  dsimp only
  split
  · apply toNat_ne_of_ne
    rw [toNat_ofNat_small _ (by omega)]
    have : NUL.toNat = 0 := by decide
    omega
  · exact h

theorem toUpper_ne_NUL {c : Char} (h : c ≠ NUL) : c.toUpper ≠ NUL := by
  unfold Char.toUpper
  dsimp only
  split
  · apply toNat_ne_of_ne
    rw [toNat_ofNat_small _ (by omega)]
    have : NUL.toNat = 0 := by decide
    omega
  · exact h

/-! ## Lemmas on keyed lists -/

theorem decodePairs_encode (codec : ListCodec) (hlaw : codec.Lawful)
    (pairs : List (List Char × List Char)) :
    decodePairs codec (pairs.map (fun kv => codec.merge [kv.1, kv.2])) = some pairs := by
  induction pairs with
  | nil => rfl
  | cons kv rest ih =>
    simp only [List.map_cons, decodePairs, decodePair, hlaw [kv.1, kv.2], ih]

theorem decodeLevel_encodeLevel (codec : ListCodec) (hlaw : codec.Lawful)
    (pairs : List (List Char × List Char)) :
    decodeLevel codec (encodeLevel codec pairs) = some pairs := by
  unfold decodeLevel encodeLevel
  rw [hlaw (pairs.map (fun kv => codec.merge [kv.1, kv.2]))]
  exact decodePairs_encode codec hlaw pairs

theorem findField_putField (key value : List Char) (pairs : List (List Char × List Char)) :
    findField key (putField key value pairs) = some value := by
  induction pairs with
  | nil => simp [putField, findField]
  | cons kv rest ih =>
    obtain ⟨k, v⟩ := kv
    by_cases h : k = key
    · simp [putField, findField, h]
    · simp [putField, findField, h, ih]

theorem findField_eq_none {key : List Char} {pairs : List (List Char × List Char)}
    (h : key ∉ pairs.map Prod.fst) : findField key pairs = none := by
  induction pairs with
  | nil => rfl
  | cons kv rest ih =>
    obtain ⟨k, v⟩ := kv
    simp only [List.map_cons, List.mem_cons, not_or] at h
    simp only [findField, if_neg (Ne.symm h.1)]
    exact ih h.2

theorem findField_dropField (key : List Char) (pairs : List (List Char × List Char))
    (hnd : (pairs.map Prod.fst).Nodup) : findField key (dropField key pairs) = none := by
  induction pairs with
  | nil => rfl
  | cons kv rest ih =>
    obtain ⟨k, v⟩ := kv
    simp only [List.map_cons, List.nodup_cons] at hnd
    by_cases h : k = key
    · subst h
      simp only [dropField, if_true]
      exact findField_eq_none hnd.1
    · simp only [dropField, if_neg h, findField]
      exact ih hnd.2

/-- With a lawful codec, resolving the segments in the text `setSegments`
returns finds the value set. -/
theorem getSegments_setSegments (codec : ListCodec) (hlaw : codec.Lawful)
    (segs : List (List Char)) :
    ∀ (fieldvalue keyedList newText : List Char),
      setSegments codec segs fieldvalue keyedList = TextResult.NewText newText →
      getSegments codec segs newText = ValueResult.Found fieldvalue := by
  induction segs with
  | nil =>
    intro fieldvalue keyedList newText h
    simp only [setSegments, TextResult.NewText.injEq] at h
    subst h
    rfl
  | cons seg rest ih =>
    intro fieldvalue keyedList newText h
    simp only [setSegments] at h
    cases hdec : decodeLevel codec keyedList with
    | none => simp [hdec] at h
    | some pairs =>
      rw [hdec] at h
      dsimp only at h
      cases hsub : setSegments codec rest fieldvalue ((findField seg pairs).getD []) with
      | NewText value =>
        rw [hsub] at h
        simp only [TextResult.NewText.injEq] at h
        subst h
        simp only [getSegments, decodeLevel_encodeLevel codec hlaw, findField_putField]
        exact ih _ _ _ hsub
      | NotFound => rw [hsub] at h; exact absurd h (by simp)
      | MalformedKeyedList => rw [hsub] at h; exact absurd h (by simp)

theorem decodeLevel_empty (codec : ListCodec) (hempty : codec.split [] = some []) :
    decodeLevel codec [] = some [] := by
  unfold decodeLevel
  rw [hempty]
  rfl

theorem levelsDecode_empty (codec : ListCodec) (hempty : codec.split [] = some [])
    (segs : List (List Char)) : levelsDecode codec segs [] = true := by
  cases segs with
  | nil => rfl
  | cons seg rest =>
    simp only [levelsDecode, decodeLevel_empty codec hempty, findField]

/-- When the empty text is the empty list and the levels the segments go
through decode, `setSegments` returns a text: a segment that is absent is
created. -/
theorem setSegments_total (codec : ListCodec) (hempty : codec.split [] = some [])
    (segs : List (List Char)) :
    ∀ (fieldvalue keyedList : List Char), levelsDecode codec segs keyedList = true →
      ∃ newText, setSegments codec segs fieldvalue keyedList = TextResult.NewText newText := by
  induction segs with
  | nil => intro fieldvalue keyedList _; exact ⟨fieldvalue, rfl⟩
  | cons seg rest ih =>
    intro fieldvalue keyedList hlevels
    simp only [levelsDecode] at hlevels
    cases hdec : decodeLevel codec keyedList with
    | none => simp [hdec] at hlevels
    | some pairs =>
      rw [hdec] at hlevels
      dsimp only at hlevels
      have hsub : levelsDecode codec rest ((findField seg pairs).getD []) = true := by
        cases hfind : findField seg pairs with
        | none => exact levelsDecode_empty codec hempty rest
        | some value =>
          rw [hfind] at hlevels
          exact hlevels
      obtain ⟨value, hvalue⟩ := ih fieldvalue _ hsub
      refine ⟨encodeLevel codec (putField seg value pairs), ?_⟩
      rw [setSegments]
      simp only [hdec, hvalue]

theorem splitPath_ne_nil (path : List Char) : splitPath path ≠ [] := by
  cases path with
  | nil => simp [splitPath]
  | cons c cs =>
    simp only [splitPath]
    split
    · simp
    · split <;> simp

/-- With a lawful codec and unique keys, deleting segments that resolve returns
a text in which they no longer resolve. -/
theorem getSegments_deleteSegments (codec : ListCodec) (hlaw : codec.Lawful)
    (segs : List (List Char)) (hne : segs ≠ []) :
    ∀ (keyedList value : List Char),
      keysUniqueAlong codec segs keyedList = true →
      getSegments codec segs keyedList = ValueResult.Found value →
      ∃ newText, deleteSegments codec segs keyedList = TextResult.NewText newText ∧
        getSegments codec segs newText = ValueResult.NotFound := by
  induction segs with
  | nil => exact absurd rfl hne
  | cons seg rest ih =>
    intro keyedList value huniq hget
    simp only [getSegments] at hget
    simp only [keysUniqueAlong] at huniq
    cases hdec : decodeLevel codec keyedList with
    | none => simp [hdec] at hget
    | some pairs =>
      rw [hdec] at hget huniq
      dsimp only at hget huniq
      cases hfind : findField seg pairs with
      | none => simp [hfind] at hget
      | some sub =>
        rw [hfind] at hget huniq
        dsimp only at hget huniq
        simp only [Bool.and_eq_true, decide_eq_true_eq] at huniq
        cases rest with
        | nil =>
          refine ⟨encodeLevel codec (dropField seg pairs), ?_, ?_⟩
          · simp only [deleteSegments, hdec, hfind]
          · simp only [getSegments, decodeLevel_encodeLevel codec hlaw,
              findField_dropField seg pairs huniq.1]
        | cons seg2 rest2 =>
          obtain ⟨newSub, hdel, hgone⟩ := ih (by simp) sub value huniq.2 hget
          refine ⟨encodeLevel codec (putField seg newSub pairs), ?_, ?_⟩
          · rw [deleteSegments]
            simp only [hdec, hfind, hdel]
          · rw [getSegments]
            simp only [decodeLevel_encodeLevel codec hlaw, findField_putField]
            exact hgone

/-- Deleting segments that do not resolve because a segment is absent reports
`NotFound`. -/
theorem deleteSegments_notFound (codec : ListCodec) (segs : List (List Char)) (hne : segs ≠ []) :
    ∀ (keyedList : List Char),
      getSegments codec segs keyedList = ValueResult.NotFound →
      deleteSegments codec segs keyedList = TextResult.NotFound := by
  induction segs with
  | nil => exact absurd rfl hne
  | cons seg rest ih =>
    intro keyedList hget
    simp only [getSegments] at hget
    cases hdec : decodeLevel codec keyedList with
    | none => simp [hdec] at hget
    | some pairs =>
      rw [hdec] at hget
      dsimp only at hget
      cases hfind : findField seg pairs with
      | none => simp only [deleteSegments, hdec, hfind]
      | some sub =>
        rw [hfind] at hget
        dsimp only at hget
        cases rest with
        | nil => simp [getSegments] at hget
        | cons seg2 rest2 =>
          have := ih (by simp) sub hget
          rw [deleteSegments]
          simp only [hdec, hfind, this]

/-! ## Lemmas on the list grammar -/

theorem foldr_pushChar (x y : List Char) (ys : List (List Char)) :
    x.foldr pushChar (y :: ys) = (x ++ y) :: ys := by
  induction x with
  | nil => rfl
  | cons c cs ih => simp only [List.foldr_cons, ih, pushChar, List.cons_append]

theorem scanList_bare_plain (c : Char) (cs : List Char) (h1 : isspace c = false)
    (h2 : c ≠ '\\') :
    scanList ScanState.bare (c :: cs) = (scanList ScanState.bare cs).map (pushChar c) := by
  rw [scanList]; simp [h1, h2]

theorem scanList_bare_backslash (c : Char) (cs : List Char) :
    scanList ScanState.bare ('\\' :: c :: cs)
      = (scanList ScanState.bare cs).map (pushChar c) := by
  have h1 : isspace '\\' = false := by decide
  simp only [scanList, h1, if_true, Bool.false_eq_true, if_false]

theorem scanList_gap_plain (c : Char) (cs : List Char) (h1 : isspace c = false)
    (h2 : c ≠ '{') (h3 : c ≠ '\\') :
    scanList ScanState.gap (c :: cs) = (scanList ScanState.bare cs).map (pushChar c) := by
  rw [scanList]; simp [h1, h2, h3]

theorem scanList_gap_backslash (c : Char) (cs : List Char) :
    scanList ScanState.gap ('\\' :: c :: cs)
      = (scanList ScanState.bare cs).map (pushChar c) := by
  have h1 : isspace '\\' = false := by decide
  have h2 : ('\\' : Char) ≠ '{' := by decide
  simp only [scanList, h1, h2, if_true, Bool.false_eq_true, if_false]

theorem scanList_gap_open (cs : List Char) :
    scanList ScanState.gap ('{' :: cs) = scanList (ScanState.braced 0) cs := by
  have h1 : isspace '{' = false := by decide
  rw [scanList]; simp only [h1, if_true, Bool.false_eq_true, if_false]

theorem scanList_braced_open (d : Nat) (cs : List Char) :
    scanList (ScanState.braced d) ('{' :: cs)
      = (scanList (ScanState.braced (d + 1)) cs).map (pushChar '{') := by
  cases d <;> simp only [scanList, if_true]

theorem scanList_braced_close (d : Nat) (cs : List Char) :
    scanList (ScanState.braced (d + 1)) ('}' :: cs)
      = (scanList (ScanState.braced d) cs).map (pushChar '}') := by
  have h2 : ('}' : Char) ≠ '{' := by decide
  rw [scanList]; simp only [h2, if_true, if_false]

theorem scanList_braced_end (cs : List Char) :
    scanList (ScanState.braced 0) ('}' :: cs) = scanList ScanState.closed cs := by
  have h2 : ('}' : Char) ≠ '{' := by decide
  rw [scanList]; simp only [h2, if_true, if_false]

theorem scanList_braced_plain (d : Nat) (c : Char) (cs : List Char) (h1 : c ≠ '{')
    (h2 : c ≠ '}') (h3 : c ≠ '\\') :
    scanList (ScanState.braced d) (c :: cs)
      = (scanList (ScanState.braced d) cs).map (pushChar c) := by
  cases d <;> simp only [scanList, h1, h2, h3, if_false]

theorem scanList_bare_escape (x tail : List Char) :
    scanList ScanState.bare (escapeElement x ++ tail)
      = (scanList ScanState.bare tail).map (fun l => x.foldr pushChar l) := by
  induction x with
  | nil => simp [escapeElement]
  | cons c cs ih =>
    by_cases hc : isSpecial c = true
    · simp only [escapeElement, hc, if_true, List.cons_append]
      rw [scanList_bare_backslash, ih, Option.map_map]
      rfl
    · have hc' : ((isspace c = false ∧ c ≠ '{') ∧ c ≠ '}') ∧ c ≠ '\\' := by
        simpa [isSpecial] using hc
      simp only [escapeElement, hc, List.cons_append, Bool.false_eq_true, if_false]
      rw [scanList_bare_plain c _ hc'.1.1.1 hc'.2, ih, Option.map_map]
      rfl

theorem scanList_gap_escape (x tail : List Char) (hx : x ≠ []) :
    scanList ScanState.gap (escapeElement x ++ tail)
      = scanList ScanState.bare (escapeElement x ++ tail) := by
  obtain ⟨c, cs, rfl⟩ := List.exists_cons_of_ne_nil hx
  by_cases hc : isSpecial c = true
  · simp only [escapeElement, hc, if_true, List.cons_append]
    rw [scanList_gap_backslash, scanList_bare_backslash]
  · have hc' : ((isspace c = false ∧ c ≠ '{') ∧ c ≠ '}') ∧ c ≠ '\\' := by
      simpa [isSpecial] using hc
    simp only [escapeElement, hc, List.cons_append, Bool.false_eq_true, if_false]
    rw [scanList_gap_plain c _ hc'.1.1.1 hc'.1.1.2 hc'.2,
      scanList_bare_plain c _ hc'.1.1.1 hc'.2]

theorem scanList_braced (x : List Char) (hx : '\\' ∉ x) (tail : List Char) :
    ∀ d d' : Nat, braceDepth d x = some d' →
      scanList (ScanState.braced d) (x ++ tail)
        = (scanList (ScanState.braced d') tail).map (fun l => x.foldr pushChar l) := by
  induction x with
  | nil =>
    intro d d' h
    simp only [braceDepth, Option.some.injEq] at h
    subst h
    simp
  | cons c cs ih =>
    intro d d' h
    simp only [List.mem_cons, not_or] at hx
    have ih' := ih hx.2
    by_cases h1 : c = '{'
    · subst h1
      simp only [braceDepth, if_true] at h
      rw [List.cons_append, scanList_braced_open, ih' _ _ h, Option.map_map]
      rfl
    · by_cases h2 : c = '}'
      · subst h2
        cases d with
        | zero => simp [braceDepth] at h
        | succ e =>
          simp only [braceDepth, if_neg h1, if_true] at h
          rw [List.cons_append, scanList_braced_close, ih' _ _ h, Option.map_map]
          rfl
      · simp only [braceDepth, if_neg h1, if_neg h2] at h
        rw [List.cons_append, scanList_braced_plain d c _ h1 h2 (Ne.symm hx.1), ih' _ _ h,
          Option.map_map]
        rfl

/-- The scan of a quoted element and what follows it: the end of the text, or a
space and the elements after it. -/
theorem scanList_quoteElement (x tail : List Char) (rest : List (List Char))
    (htail : (tail = [] ∧ rest = []) ∨
      ∃ r, tail = ' ' :: r ∧ scanList ScanState.gap r = some rest) :
    scanList ScanState.gap (quoteElement x ++ tail) = some (x :: rest) := by
  have hbare : scanList ScanState.bare tail = some ([] :: rest) := by
    rcases htail with ⟨rfl, rfl⟩ | ⟨r, rfl, hr⟩
    · rfl
    · have : isspace ' ' = true := by decide
      rw [scanList]; simp only [this, if_true, hr, Option.map_some']
  have hclosed : scanList ScanState.closed tail = some ([] :: rest) := by
    rcases htail with ⟨rfl, rfl⟩ | ⟨r, rfl, hr⟩
    · rfl
    · have : isspace ' ' = true := by decide
      rw [scanList]; simp only [this, if_true, hr, Option.map_some']
  unfold quoteElement
  split
  · next h =>
    subst h
    rw [List.cons_append, List.cons_append, List.nil_append, scanList_gap_open,
      scanList_braced_end, hclosed]
  · next hne =>
    split
    · next h =>
      rw [List.cons_append, List.cons_append, List.append_assoc, scanList_gap_open,
        scanList_braced x h.2.2 _ 0 0 h.2.1, List.singleton_append, scanList_braced_end,
        hclosed, Option.map_some', foldr_pushChar, List.append_nil]
    · rw [scanList_gap_escape x tail hne, scanList_bare_escape, hbare, Option.map_some',
        foldr_pushChar, List.append_nil]

theorem tclCodec_lawful : tclCodec.Lawful := by
  intro xs
  show scanList ScanState.gap (mergeList xs) = some xs
  induction xs with
  | nil => rfl
  | cons x rest ih =>
    cases rest with
    | nil =>
      have := scanList_quoteElement x [] [] (Or.inl ⟨rfl, rfl⟩)
      simpa [mergeList] using this
    | cons y ys =>
      exact scanList_quoteElement x (' ' :: mergeList (y :: ys)) (y :: ys)
        (Or.inr ⟨_, rfl, ih⟩)

/-! ## Lemmas on handle tables -/

theorem digitChar_decimal (d : Nat) (h : d < 10) :
    Nat.digitChar d ∈ decimalDigits ∧ (Nat.digitChar d).toNat = 48 + d := by
  interval_cases d <;> decide

/-- The decimal digits of `n` denote `n`, whatever is scanned after them. -/
theorem toDigitsCore_decimal (fuel : Nat) :
    ∀ (n : Nat) (ds : List Char), n < fuel →
      (∀ c ∈ ds, c ∈ decimalDigits) →
      Nat.toDigitsCore 10 fuel n ds ≠ [] ∧
      (∀ c ∈ Nat.toDigitsCore 10 fuel n ds, c ∈ decimalDigits) ∧
      (Nat.toDigitsCore 10 fuel n ds).foldl (fun k c => 10 * k + (c.toNat - 48)) 0
        = ds.foldl (fun k c => 10 * k + (c.toNat - 48)) n := by
  induction fuel with
  | zero => intro n ds h; omega
  | succ fuel ih =>
    intro n ds hn hds
    have hd := digitChar_decimal (n % 10) (Nat.mod_lt _ (by decide))
    have hds1 : ∀ c ∈ Nat.digitChar (n % 10) :: ds, c ∈ decimalDigits := by
      intro c hc
      rcases List.mem_cons.mp hc with rfl | hc
      · exact hd.1
      · exact hds c hc
    have hstep : (Nat.digitChar (n % 10) :: ds).foldl (fun k c => 10 * k + (c.toNat - 48))
        (n / 10) = ds.foldl (fun k c => 10 * k + (c.toNat - 48)) n := by
      simp only [List.foldl_cons, hd.2]
      congr 1
      omega
    unfold Nat.toDigitsCore
    dsimp only
    split
    · next h0 =>
      refine ⟨by simp, hds1, ?_⟩
      rw [← hstep, h0]
    · next h0 =>
      have := ih (n / 10) (Nat.digitChar (n % 10) :: ds) (by omega) hds1
      exact ⟨this.1, this.2.1, this.2.2.trans hstep⟩

theorem parseIndex_toDigits (entryIdx : Nat) :
    parseIndex (Nat.toDigits 10 entryIdx) = some entryIdx := by
  have h := toDigitsCore_decimal (entryIdx + 1) entryIdx [] (by omega) (by simp)
  unfold parseIndex Nat.toDigits
  rw [if_pos ⟨h.1, fun c hc => digit_bounds (h.2.1 c hc)⟩, h.2.2]
  rfl

theorem Tcl_HandleXlate_handleString (table : HandleTable) (entryIdx : Nat) :
    Tcl_HandleXlate table (handleString table.handleBase entryIdx)
      = match table.slots[entryIdx]? with
        | none => XlateResult.StaleHandle
        | some entry =>
          if entry.occupied then XlateResult.Entry entryIdx else XlateResult.StaleHandle := by
  unfold Tcl_HandleXlate handleString
  rw [List.take_left, List.drop_left, parseIndex_toDigits]
  simp

theorem freeListInRange_init (handleBase : List Char) (entrySize initEntries : Nat) :
    freeListInRange (Tcl_HandleTblInit handleBase entrySize initEntries) := by
  intro j hj
  simpa [Tcl_HandleTblInit] using hj

theorem freeListInRange_alloc (table : HandleTable) (h : freeListInRange table) :
    freeListInRange (Tcl_HandleAlloc table).1 := by
  unfold Tcl_HandleAlloc
  cases hfl : table.freeList with
  | nil =>
    intro j hj
    simp only [List.mem_range'_1] at hj
    simp only [List.length_append, List.length_cons, List.length_replicate]
    omega
  | cons entryIdx rest =>
    intro j hj
    simp only [List.length_set]
    exact h j (by rw [hfl]; exact List.mem_cons_of_mem _ hj)

theorem freeListInRange_free (table : HandleTable) (entryIdx : Nat)
    (h : freeListInRange table) (hidx : entryIdx < table.slots.length) :
    freeListInRange (Tcl_HandleFree table entryIdx) := by
  intro j hj
  simp only [Tcl_HandleFree, List.length_set, List.mem_cons] at hj ⊢
  rcases hj with rfl | hj
  · exact hidx
  · exact h j hj

theorem freeListInRange_applyCalls (calls : List HandleCall) :
    ∀ table : HandleTable, freeListInRange table → validCalls table calls = true →
      freeListInRange (applyCalls table calls) := by
  induction calls with
  | nil => intro table h _; exact h
  | cons call calls ih =>
    intro table h hv
    cases call with
    | alloc =>
      simp only [validCalls] at hv
      exact ih _ (freeListInRange_alloc table h) hv
    | free entryIdx =>
      simp only [validCalls, Bool.and_eq_true, decide_eq_true_eq] at hv
      exact ih _ (freeListInRange_free table entryIdx h hv.1) hv.2

theorem handleBase_applyCalls (calls : List HandleCall) :
    ∀ table : HandleTable, (applyCalls table calls).handleBase = table.handleBase := by
  induction calls with
  | nil => intro table; rfl
  | cons call calls ih =>
    intro table
    rw [applyCalls, ih]
    cases call with
    | alloc =>
      simp only [applyCall, Tcl_HandleAlloc]
      cases table.freeList <;> rfl
    | free entryIdx => rfl

theorem Tcl_HandleXlate_slotOccupied (table : HandleTable) (entryIdx : Nat) :
    Tcl_HandleXlate table (handleString table.handleBase entryIdx)
      = if slotOccupied table entryIdx = true then XlateResult.Entry entryIdx
        else XlateResult.StaleHandle := by
  rw [Tcl_HandleXlate_handleString]
  unfold slotOccupied
  cases table.slots[entryIdx]? with
  | none => simp
  | some entry => cases h : entry.occupied <;> simp [h]

theorem slotOccupied_alloc_entry (table : HandleTable) (h : freeListInRange table) :
    slotOccupied (Tcl_HandleAlloc table).1 (Tcl_HandleAlloc table).2.1 = true := by
  unfold Tcl_HandleAlloc slotOccupied
  cases hfl : table.freeList with
  | nil =>
    simp only []
    rw [List.getElem?_append_right (Nat.le_refl _), Nat.sub_self, List.getElem?_cons_zero]
    rfl
  | cons entryIdx rest =>
    have hlt : entryIdx < table.slots.length :=
      h entryIdx (by rw [hfl]; exact List.mem_cons_self _ _)
    simp [newEntry, List.getElem?_set, hlt]

theorem slotOccupied_alloc_of_occupied (table : HandleTable) (entryIdx : Nat)
    (h : slotOccupied table entryIdx = true) :
    slotOccupied (Tcl_HandleAlloc table).1 entryIdx = true := by
  unfold slotOccupied at h ⊢
  have hlt : entryIdx < table.slots.length := by
    by_contra hge
    rw [List.getElem?_eq_none (by omega)] at h
    exact Bool.noConfusion h
  unfold Tcl_HandleAlloc
  cases hfl : table.freeList with
  | nil =>
    simp only []
    rw [List.getElem?_append_left hlt]
    exact h
  | cons popped rest =>
    simp only [List.getElem?_set]
    by_cases hp : popped = entryIdx
    · subst hp
      simp [hlt, newEntry]
    · simp only [if_neg hp]
      exact h

theorem slotOccupied_free_other (table : HandleTable) (freed entryIdx : Nat)
    (hne : freed ≠ entryIdx) :
    slotOccupied (Tcl_HandleFree table freed) entryIdx = slotOccupied table entryIdx := by
  unfold slotOccupied Tcl_HandleFree
  simp only [List.getElem?_set, if_neg hne]

theorem slotOccupied_free_entry (table : HandleTable) (entryIdx : Nat) :
    slotOccupied (Tcl_HandleFree table entryIdx) entryIdx = false := by
  unfold slotOccupied Tcl_HandleFree
  simp only [List.getElem?_set, if_true]
  by_cases hlt : entryIdx < table.slots.length <;> simp [hlt]

theorem slotOccupied_alloc_of_free (table : HandleTable) (entryIdx : Nat)
    (hne : (Tcl_HandleAlloc table).2.1 ≠ entryIdx)
    (h : slotOccupied table entryIdx = false) :
    slotOccupied (Tcl_HandleAlloc table).1 entryIdx = false := by
  unfold Tcl_HandleAlloc at hne ⊢
  unfold slotOccupied at h ⊢
  cases hfl : table.freeList with
  | nil =>
    rw [hfl] at hne
    simp only [] at hne ⊢
    by_cases hlt : entryIdx < table.slots.length
    · rw [List.getElem?_append_left hlt]
      exact h
    · rw [List.getElem?_append_right (by omega)]
      obtain ⟨k, hk⟩ : ∃ k, entryIdx - table.slots.length = k + 1 :=
        ⟨entryIdx - table.slots.length - 1, by omega⟩
      rw [hk, List.getElem?_cons_succ]
      have hrep : ∀ n : Nat,
          (match (List.replicate n (freeEntry table.entrySize))[k]? with
            | none => false
            | some entry => entry.occupied) = false := by
        intro n
        rw [List.getElem?_replicate]
        split_ifs <;> rfl
      exact hrep _
  | cons popped rest =>
    rw [hfl] at hne
    simp only [] at hne ⊢
    simp only [List.getElem?_set, if_neg hne]
    exact h

/-- An occupied slot stays occupied through calls that do not free it. -/
theorem slotOccupied_applyCalls (entryIdx : Nat) (calls : List HandleCall)
    (hfree : HandleCall.free entryIdx ∉ calls) :
    ∀ table : HandleTable, slotOccupied table entryIdx = true →
      slotOccupied (applyCalls table calls) entryIdx = true := by
  induction calls with
  | nil => intro table h; exact h
  | cons call calls ih =>
    intro table h
    simp only [List.mem_cons, not_or] at hfree
    rw [applyCalls]
    apply ih hfree.2
    cases call with
    | alloc => exact slotOccupied_alloc_of_occupied table entryIdx h
    | free freed =>
      have hne : freed ≠ entryIdx := fun e => hfree.1 (by rw [e])
      simp only [applyCall]
      rw [slotOccupied_free_other table freed entryIdx hne]
      exact h

/-- A slot that is not occupied stays so through calls none of which allocates
it. -/
theorem slotOccupied_applyCalls_free (entryIdx : Nat) (calls : List HandleCall) :
    ∀ table : HandleTable, neverAllocates entryIdx table calls = true →
      slotOccupied table entryIdx = false →
      slotOccupied (applyCalls table calls) entryIdx = false := by
  induction calls with
  | nil => intro table _ h; exact h
  | cons call calls ih =>
    intro table hnever h
    rw [applyCalls]
    cases call with
    | alloc =>
      simp only [neverAllocates, Bool.and_eq_true, decide_eq_true_eq] at hnever
      exact ih _ hnever.2 (slotOccupied_alloc_of_free table entryIdx hnever.1 h)
    | free freed =>
      simp only [neverAllocates] at hnever
      apply ih _ hnever
      simp only [applyCall]
      by_cases hne : freed = entryIdx
      · subst hne
        exact slotOccupied_free_entry table freed
      · rw [slotOccupied_free_other table freed entryIdx hne]
        exact h

theorem handleBase_alloc (table : HandleTable) :
    (Tcl_HandleAlloc table).1.handleBase = table.handleBase := by
  unfold Tcl_HandleAlloc
  split <;> rfl

theorem handle_alloc (table : HandleTable) :
    (Tcl_HandleAlloc table).2.2 = handleString table.handleBase (Tcl_HandleAlloc table).2.1 := by
  unfold Tcl_HandleAlloc
  split <;> rfl

/-- C1: `Tcl_StrToLong` does not return 1 only for valid numbers.  The string
made of one space holds no digit and is not a valid number in any base, yet in
each of the bases 0, 8, 10 and 16 the function returns 1 and stores 0. -/
theorem Tcl_StrToLong_blank_accepted :
    (∀ base, ¬ ValidNumber base [' ']) ∧
    (∀ old, Tcl_StrToLong [' '] 0 old = (TRUE, 0)) ∧
    (∀ old, Tcl_StrToLong [' '] 8 old = (TRUE, 0)) ∧
    (∀ old, Tcl_StrToLong [' '] 10 old = (TRUE, 0)) ∧
    (∀ old, Tcl_StrToLong [' '] 16 old = (TRUE, 0)) :=
  ⟨not_validNumber_blank, fun _ => rfl, fun _ => rfl, fun _ => rfl, fun _ => rfl⟩

/-- C2: on optional white space, an optional sign, one or more decimal digits
whose signed value lies in the range of a `long`, and optional white space,
`Tcl_StrToLong` with base 10 returns 1 and stores exactly that value. -/
theorem Tcl_StrToLong_decimal (lead sign ds trail : List Char) (old : Int)
    (hlead : ∀ c ∈ lead, c ∈ whiteSpace)
    (hsign : sign = [] ∨ sign = ['+'] ∨ sign = ['-'])
    (hne : ds ≠ [])
    (hds : ∀ c ∈ ds, c ∈ decimalDigits)
    (htrail : ∀ c ∈ trail, c ∈ whiteSpace)
    (hrange : LONG_MIN ≤ signedValue sign ds ∧ signedValue sign ds ≤ LONG_MAX) :
    Tcl_StrToLong (lead ++ sign ++ ds ++ trail) 10 old = (1, signedValue sign ds) := by
  have hds1 : ∀ c ∈ ds, 48 ≤ c.toNat ∧ c.toNat ≤ 57 := fun c hc => digit_bounds (hds c hc)
  have htrail1 : ∀ c ∈ trail, isspace c = true := fun c hc => isspace_of_mem (htrail c hc)
  have hscan := scanInteger_decimal lead sign ds trail
    (fun c hc => isspace_of_mem (hlead c hc)) hsign hne hds1 htrail1
  have hval : ((digitsVal 10 ds : Nat) : Int) = decimalValue ds := by
    have := digitsVal_decimal ds hds1 0
    simpa [digitsVal, decimalValue] using this
  have hx : (if decide (sign = ['-']) = true then -((digitsVal 10 ds : Nat) : Int)
      else ((digitsVal 10 ds : Nat) : Int)) = signedValue sign ds := by
    rw [hval]; simp [signedValue]
  have hend : skipSpace (lead ++ sign ++ ds ++ trail) (lead.length + sign.length + ds.length)
      = (lead ++ sign ++ ds ++ trail).length := by
    have := skipSpace_trailing (lead ++ sign ++ ds) trail htrail1
    rw [List.length_append, List.length_append] at this
    exact this
  have hpos : (lead ++ sign ++ ds ++ trail).length ≠ 0 := by
    obtain ⟨d, ds1, rfl⟩ := List.exists_cons_of_ne_nil hne
    simp
  unfold Tcl_StrToLong strtol
  rw [hscan]
  dsimp only
  rw [hx, hend, charAt_length]
  rw [if_neg (not_lt.mpr hrange.1), if_neg (not_lt.mpr hrange.2)]
  rw [if_neg (fun h => h.elim hpos (fun h2 => h2 rfl))]
  rfl

/-- C3: when `Tcl_StrToLong`, `Tcl_StrToInt` or `Tcl_StrToUnsigned` returns 0,
the output location holds the value it held before the call. -/
theorem StrTo_failure_keeps_output (s : List Char) (base : Nat) (longOld intOld : Int)
    (unsignedOld : Nat) :
    ((Tcl_StrToLong s base longOld).1 = FALSE → (Tcl_StrToLong s base longOld).2 = longOld) ∧
    ((Tcl_StrToInt s base intOld).1 = FALSE → (Tcl_StrToInt s base intOld).2 = intOld) ∧
    ((Tcl_StrToUnsigned s base unsignedOld).1 = FALSE →
      (Tcl_StrToUnsigned s base unsignedOld).2 = unsignedOld) := by
  refine ⟨?_, ?_, ?_⟩
  · unfold Tcl_StrToLong
    dsimp only
    split
    · intro _; rfl
    · intro h; exact absurd (show TRUE = FALSE from h) (by decide)
  · unfold Tcl_StrToInt
    dsimp only
    split
    · intro _; rfl
    · intro h; exact absurd (show TRUE = FALSE from h) (by decide)
  · unfold Tcl_StrToUnsigned
    dsimp only
    split
    · intro _; rfl
    · intro h; exact absurd (show TRUE = FALSE from h) (by decide)

theorem StrTo_failure_keeps_output_witness :
    (Tcl_StrToLong ['1', '2', 'x'] 10 7).1 = FALSE ∧ (Tcl_StrToLong ['1', '2', 'x'] 10 7).2 = 7 ∧
    (Tcl_StrToInt ['1', '2', 'x'] 10 7).1 = FALSE ∧ (Tcl_StrToInt ['1', '2', 'x'] 10 7).2 = 7 ∧
    (Tcl_StrToUnsigned ['1', '2', 'x'] 10 7).1 = FALSE ∧
    (Tcl_StrToUnsigned ['1', '2', 'x'] 10 7).2 = 7 :=
  ⟨by decide, (StrTo_failure_keeps_output ['1', '2', 'x'] 10 7 7 7).1 (by decide),
   by decide, (StrTo_failure_keeps_output ['1', '2', 'x'] 10 7 7 7).2.1 (by decide),
   by decide, (StrTo_failure_keeps_output ['1', '2', 'x'] 10 7 7 7).2.2 (by decide)⟩

theorem Tcl_StrToLong_decimal_witness :
    Tcl_StrToLong [' ', '-', '4', '2', '\t'] 10 7 = (1, -42) :=
  Tcl_StrToLong_decimal [' '] ['-'] ['4', '2'] ['\t'] 7
    (by decide) (by decide) (by decide) (by decide) (by decide) (by decide)

/-- C4: `Tcl_GetLong` does not report every improperly formed string.  The
string made of one space is not a properly formed integer, yet the function
returns TCL_OK, stores 0 and leaves the interpreter result as it was, where
TCL_ERROR and the message were due. -/
theorem Tcl_GetLong_blank_accepted :
    ¬ ValidNumber 0 [' '] ∧
    ∀ (result : List Char) (old : Int), Tcl_GetLong result [' '] old = (TCL_OK, result, 0) :=
  ⟨not_validNumber_blank 0, fun _ _ => rfl⟩

/-- C5: on a string whose first character after leading white space is `-`,
`Tcl_GetUnsigned` returns TCL_ERROR, leaves `*unsignedPtr` as it was and
appends to the interpreter result the message
`expected unsigned integer but got "..."`, quoting the string from the `-` on. -/
theorem Tcl_GetUnsigned_minus (result ws rest : List Char) (old : Nat)
    (hws : ∀ c ∈ ws, c ∈ whiteSpace) :
    Tcl_GetUnsigned result (ws ++ '-' :: rest) old
      = (TCL_ERROR,
         result ++ "expected unsigned integer but got \"".toList ++ cstr ('-' :: rest) ++ ['"'],
         old) := by
  have hdrop : (ws ++ '-' :: rest).dropWhile isspace = '-' :: rest := by
    induction ws with
    | nil => rfl
    | cons w ws ih =>
      have hw : isspace w = true := isspace_of_mem (hws w (List.mem_cons_self _ _))
      simp only [List.cons_append, List.dropWhile_cons, hw, if_true]
      exact ih (fun c hc => hws c (List.mem_cons_of_mem _ hc))
  unfold Tcl_GetUnsigned
  rw [hdrop]
  rfl

theorem Tcl_GetUnsigned_minus_witness :
    Tcl_GetUnsigned ['o', 'k'] [' ', '\t', '-', '1'] 7
      = (TCL_ERROR,
         ['o', 'k'] ++ "expected unsigned integer but got \"".toList ++ cstr ['-', '1'] ++ ['"'],
         7) :=
  Tcl_GetUnsigned_minus ['o', 'k'] [' ', '\t'] ['1'] 7 (by decide)

/-- C6: when the NUL-terminated ASCII string `s` lies at `sourceStr` and the
target (the new block when `targetStr` is NULL) is the source itself or does
not overlap it ahead of its start, `Tcl_DownShift` returns, and the target then
holds, position by position, `s` with every letter `A`-`Z` replaced by its
lower-case letter and every other character unchanged, followed by the
terminating NUL. -/
theorem Tcl_DownShift_target (fuel newBlock : Nat) (m : Mem) (targetStr : Option Nat)
    (sourceStr : Nat) (s : List Char)
    (hsrc : m.read sourceStr s.length = s) (hnul : m (sourceStr + s.length) = NUL)
    (hs : ∀ c ∈ s, c ≠ NUL ∧ c.toNat < 128)
    (hsep : targetStr.getD newBlock ≤ sourceStr ∨
      sourceStr + s.length < targetStr.getD newBlock)
    (hfuel : s.length < fuel) :
    ∃ m' ret, Tcl_DownShift fuel newBlock m targetStr sourceStr = some (m', ret) ∧
      m'.read (targetStr.getD newBlock) s.length = s.map Char.toLower ∧
      (∀ c ∈ s.map Char.toLower, c ≠ NUL) ∧
      m' (targetStr.getD newBlock + s.length) = NUL := by
  have hloop := shiftLoop_spec (fun c => if isupper c = true then tolower c else c)
    downShiftLoop (fun _ _ _ _ => rfl) s (fun c hc => (hs c hc).1) fuel m
    (targetStr.getD newBlock) sourceStr hsrc hnul hsep hfuel
  obtain ⟨m1, hrun, hout, hterm, -⟩ := hloop
  have hmap : s.map (fun c => if isupper c = true then tolower c else c) = s.map Char.toLower :=
    List.map_congr_left (fun c _ => toLower_eq c)
  have hrun1 : Tcl_DownShift fuel newBlock m targetStr sourceStr
      = some (m1, targetStr.getD newBlock + s.length) := by
    rw [← hrun]
    cases targetStr <;> rfl
  refine ⟨m1, _, hrun1, by rw [hout, hmap], ?_, hterm⟩
  intro c hc
  obtain ⟨d, hd, rfl⟩ := List.mem_map.mp hc
  exact toLower_ne_NUL (hs d hd).1

theorem Tcl_DownShift_target_witness :
    ∃ m' ret, Tcl_DownShift 8 16 (Mem.ofString 0 ['A', 'b', '1']) none 0 = some (m', ret) ∧
      m'.read 16 3 = ['a', 'b', '1'] ∧
      (∀ c ∈ ['a', 'b', '1'], c ≠ NUL) ∧
      m' (16 + 3) = NUL :=
  Tcl_DownShift_target 8 16 (Mem.ofString 0 ['A', 'b', '1']) none 0 ['A', 'b', '1']
    (by decide) (by decide) (by decide) (by decide) (by decide)

/-- C7: when the NUL-terminated ASCII string `s` lies at `sourceStr` and the
target (the new block when `targetStr` is NULL) is the source itself or does
not overlap it ahead of its start, `Tcl_UpShift` returns, and the target then
holds, position by position, `s` with every letter `a`-`z` replaced by its
upper-case letter and every other character unchanged, followed by the
terminating NUL. -/
theorem Tcl_UpShift_target (fuel newBlock : Nat) (m : Mem) (targetStr : Option Nat)
    (sourceStr : Nat) (s : List Char)
    (hsrc : m.read sourceStr s.length = s) (hnul : m (sourceStr + s.length) = NUL)
    (hs : ∀ c ∈ s, c ≠ NUL ∧ c.toNat < 128)
    (hsep : targetStr.getD newBlock ≤ sourceStr ∨
      sourceStr + s.length < targetStr.getD newBlock)
    (hfuel : s.length < fuel) :
    ∃ m' ret, Tcl_UpShift fuel newBlock m targetStr sourceStr = some (m', ret) ∧
      m'.read (targetStr.getD newBlock) s.length = s.map Char.toUpper ∧
      (∀ c ∈ s.map Char.toUpper, c ≠ NUL) ∧
      m' (targetStr.getD newBlock + s.length) = NUL := by
  have hloop := shiftLoop_spec (fun c => if islower c = true then toupper c else c)
    upShiftLoop (fun _ _ _ _ => rfl) s (fun c hc => (hs c hc).1) fuel m
    (targetStr.getD newBlock) sourceStr hsrc hnul hsep hfuel
  obtain ⟨m1, hrun, hout, hterm, -⟩ := hloop
  have hmap : s.map (fun c => if islower c = true then toupper c else c) = s.map Char.toUpper :=
    List.map_congr_left (fun c _ => toUpper_eq c)
  have hrun1 : Tcl_UpShift fuel newBlock m targetStr sourceStr
      = some (m1, targetStr.getD newBlock + s.length) := by
    rw [← hrun]
    cases targetStr <;> rfl
  refine ⟨m1, _, hrun1, by rw [hout, hmap], ?_, hterm⟩
  intro c hc
  obtain ⟨d, hd, rfl⟩ := List.mem_map.mp hc
  exact toUpper_ne_NUL (hs d hd).1

theorem Tcl_UpShift_target_witness :
    ∃ m' ret, Tcl_UpShift 8 16 (Mem.ofString 4 ['A', 'b', '1']) (some 4) 4 = some (m', ret) ∧
      m'.read 4 3 = ['A', 'B', '1'] ∧
      (∀ c ∈ ['A', 'B', '1'], c ≠ NUL) ∧
      m' (4 + 3) = NUL :=
  Tcl_UpShift_target 8 16 (Mem.ofString 4 ['A', 'b', '1']) (some 4) 4 ['A', 'b', '1']
    (by decide) (by decide) (by decide) (by decide) (by decide)

/-- C8: the value `Tcl_DownShift` and `Tcl_UpShift` return is not a pointer to
the shifted string but to its terminating NUL.  With the string `Ab` at
address 0 and a NULL `targetStr`, the new block being at address 16, the
shifted string is stored from 16 on and both functions return 18, the address
of the NUL, so the C string read from the return value is empty. -/
theorem shift_returns_end_of_string :
    (Tcl_DownShift 8 16 (Mem.ofString 0 ['A', 'b']) none 0).map
        (fun r => (r.1.read 16 3, r.2, r.1 r.2)) = some (['a', 'b', NUL], 18, NUL) ∧
    (Tcl_UpShift 8 16 (Mem.ofString 0 ['A', 'b']) none 0).map
        (fun r => (r.1.read 16 3, r.2, r.1 r.2)) = some (['A', 'B', NUL], 18, NUL) := by
  decide

/-- C9, as stated, fails in two ways.  A keyed list whose field `a` is a
scalar is a valid keyed list, and setting `a.b` in it returns no text but
`MalformedKeyedList`, the value `1` of `a`, a level of the path, not being a
list of pairs.  And the empty path sets the zero-length key but gets the whole
list, not the value. -/
theorem set_then_get_fails :
    decodeLevel tclCodec "{a 1}".toList = some [("a".toList, "1".toList)] ∧
    levelsDecode tclCodec (splitPath "a.b".toList) "{a 1}".toList = false ∧
    Tcl_SetKeyedListField tclCodec "a.b".toList "x".toList "{a 1}".toList
      = TextResult.MalformedKeyedList ∧
    (¬ ∃ newList, Tcl_SetKeyedListField tclCodec "a.b".toList "x".toList "{a 1}".toList
        = TextResult.NewText newList ∧
      Tcl_GetKeyedListField tclCodec "a.b".toList newList = ValueResult.Found "x".toList) ∧
    Tcl_SetKeyedListField tclCodec [] "1".toList []
      = TextResult.NewText "{{} 1}".toList ∧
    Tcl_GetKeyedListField tclCodec [] "{{} 1}".toList
      = ValueResult.Found "{{} 1}".toList ∧
    (¬ ∃ newList, Tcl_SetKeyedListField tclCodec [] "1".toList [] = TextResult.NewText newList ∧
      Tcl_GetKeyedListField tclCodec [] newList = ValueResult.Found "1".toList) := by
  have hset : Tcl_SetKeyedListField tclCodec "a.b".toList "x".toList "{a 1}".toList
      = TextResult.MalformedKeyedList := by decide
  have hset0 : Tcl_SetKeyedListField tclCodec [] "1".toList []
      = TextResult.NewText "{{} 1}".toList := by decide
  refine ⟨by decide, by decide, hset, ?_, hset0, by decide, ?_⟩
  · rintro ⟨newList, h, -⟩
    rw [hset] at h
    exact TextResult.noConfusion h
  · rintro ⟨newList, h, hget⟩
    rw [hset0] at h
    injection h with h
    subst h
    exact absurd hget (by decide)

/-- C9, amended: with a codec whose `split` inverts `merge` and reads the empty
text as the empty list, for every non-empty field path `fieldName`, every value
and every keyed list whose levels along the path decode as lists of pairs,
where the segments exist: setting the path returns a text, the segments that
are absent being created, and getting the path from that text finds the field
and yields exactly the value set. -/
theorem get_of_set (codec : ListCodec) (hlaw : codec.Lawful)
    (hempty : codec.split [] = some [])
    (fieldName fieldvalue keyedList : List Char) (hname : fieldName ≠ [])
    (hlevels : levelsDecode codec (splitPath fieldName) keyedList = true) :
    ∃ newList, Tcl_SetKeyedListField codec fieldName fieldvalue keyedList
        = TextResult.NewText newList ∧
      Tcl_GetKeyedListField codec fieldName newList = ValueResult.Found fieldvalue := by
  obtain ⟨newList, hset⟩ :=
    setSegments_total codec hempty (splitPath fieldName) fieldvalue keyedList hlevels
  refine ⟨newList, hset, ?_⟩
  unfold Tcl_GetKeyedListField
  rw [if_neg hname]
  exact getSegments_setSegments codec hlaw (splitPath fieldName) fieldvalue keyedList newList hset

theorem get_of_set_witness :
    Tcl_SetKeyedListField tclCodec "a.b".toList "1".toList []
      = TextResult.NewText "{a {{b 1}}}".toList ∧
    (∃ newList, Tcl_SetKeyedListField tclCodec "a.b".toList "1".toList []
        = TextResult.NewText newList ∧
      Tcl_GetKeyedListField tclCodec "a.b".toList newList = ValueResult.Found "1".toList) ∧
    Tcl_SetKeyedListField tclCodec "y".toList "2".toList "{x 1}".toList
      = TextResult.NewText "{x 1} {y 2}".toList ∧
    (∃ newList, Tcl_SetKeyedListField tclCodec "y".toList "2".toList "{x 1}".toList
        = TextResult.NewText newList ∧
      Tcl_GetKeyedListField tclCodec "y".toList newList = ValueResult.Found "2".toList) :=
  ⟨by decide,
   get_of_set tclCodec tclCodec_lawful (by decide) "a.b".toList "1".toList []
     (by decide) (by decide),
   by decide,
   get_of_set tclCodec tclCodec_lawful (by decide) "y".toList "2".toList "{x 1}".toList
     (by decide) (by decide)⟩

/-- C10, as stated, fails on the empty path, which `Get` finds in every keyed
list: in the list of the one pair with the zero-length key, `Get` finds the
empty path, `Delete` returns the empty text, and `Get` of the empty path on
that text reports `Found`, not `NotFound`. -/
theorem delete_then_get_fails :
    decodeLevel tclCodec "{{} 1}".toList = some [([], "1".toList)] ∧
    Tcl_GetKeyedListField tclCodec [] "{{} 1}".toList = ValueResult.Found "{{} 1}".toList ∧
    Tcl_DeleteKeyedListField tclCodec [] "{{} 1}".toList = TextResult.NewText [] ∧
    Tcl_GetKeyedListField tclCodec [] [] = ValueResult.Found [] ∧
    (¬ ∃ newList, Tcl_DeleteKeyedListField tclCodec [] "{{} 1}".toList
        = TextResult.NewText newList ∧
      Tcl_GetKeyedListField tclCodec [] newList = ValueResult.NotFound) := by
  have hdel : Tcl_DeleteKeyedListField tclCodec [] "{{} 1}".toList = TextResult.NewText [] := by
    decide
  refine ⟨by decide, by decide, hdel, by decide, ?_⟩
  rintro ⟨newList, h, hget⟩
  rw [hdel] at h
  injection h with h
  subst h
  exact absurd hget (by decide)

/-- C10, amended: with a codec whose `split` inverts `merge`, for a non-empty
field path `fieldName` and a keyed list whose keys are unique at the levels the
path goes through: when `Get` finds the path, `Delete` returns a text on which
`Get` of the path reports `NotFound`; and when `Get` reports `NotFound`, a
segment being absent, `Delete` reports `NotFound` and returns no text. -/
theorem get_of_delete (codec : ListCodec) (hlaw : codec.Lawful)
    (fieldName keyedList : List Char) (hname : fieldName ≠ [])
    (huniq : keysUniqueAlong codec (splitPath fieldName) keyedList = true) :
    (∀ value, Tcl_GetKeyedListField codec fieldName keyedList = ValueResult.Found value →
      ∃ newList, Tcl_DeleteKeyedListField codec fieldName keyedList = TextResult.NewText newList ∧
        Tcl_GetKeyedListField codec fieldName newList = ValueResult.NotFound) ∧
    (Tcl_GetKeyedListField codec fieldName keyedList = ValueResult.NotFound →
      Tcl_DeleteKeyedListField codec fieldName keyedList = TextResult.NotFound) := by
  unfold Tcl_GetKeyedListField Tcl_DeleteKeyedListField
  simp only [if_neg hname]
  exact ⟨fun value hget =>
      getSegments_deleteSegments codec hlaw _ (splitPath_ne_nil fieldName) keyedList value
        huniq hget,
    deleteSegments_notFound codec _ (splitPath_ne_nil fieldName) keyedList⟩

theorem get_of_delete_witness :
    Tcl_GetKeyedListField tclCodec "y".toList "{x 1} {y 2}".toList
      = ValueResult.Found "2".toList ∧
    (∃ newList, Tcl_DeleteKeyedListField tclCodec "y".toList "{x 1} {y 2}".toList
        = TextResult.NewText newList ∧
      Tcl_GetKeyedListField tclCodec "y".toList newList = ValueResult.NotFound) ∧
    Tcl_GetKeyedListField tclCodec "z".toList "{x 1} {y 2}".toList = ValueResult.NotFound ∧
    Tcl_DeleteKeyedListField tclCodec "z".toList "{x 1} {y 2}".toList = TextResult.NotFound :=
  ⟨by decide,
   (get_of_delete tclCodec tclCodec_lawful "y".toList "{x 1} {y 2}".toList
     (by decide) (by decide)).1 "2".toList (by decide),
   by decide,
   (get_of_delete tclCodec tclCodec_lawful "z".toList "{x 1} {y 2}".toList
     (by decide) (by decide)).2 (by decide)⟩

/-- C11: on a table made by `Tcl_HandleTblInit` and taken through calls of
`Tcl_HandleAlloc` and `Tcl_HandleFree`, each free being given a slot of the
table, the handle string an `Alloc` returns translates, after any further
calls that do not free its entry, to the entry that `Alloc` returned; and once
the entry is freed, `Tcl_HandleXlate` on that string reports `StaleHandle`
after any further calls in which no `Alloc` returns the slot again. -/
theorem handle_live_until_freed (handleBase : List Char) (entrySize initEntries : Nat)
    (before during after : List HandleCall)
    (table : HandleTable) (entryIdx : Nat) (handle : List Char)
    (hbefore : validCalls (Tcl_HandleTblInit handleBase entrySize initEntries) before = true)
    (halloc : Tcl_HandleAlloc
      (applyCalls (Tcl_HandleTblInit handleBase entrySize initEntries) before)
        = (table, entryIdx, handle))
    (hlive : HandleCall.free entryIdx ∉ during) :
    Tcl_HandleXlate (applyCalls table during) handle = XlateResult.Entry entryIdx ∧
    (neverAllocates entryIdx (Tcl_HandleFree (applyCalls table during) entryIdx) after = true →
      Tcl_HandleXlate
        (applyCalls (Tcl_HandleFree (applyCalls table during) entryIdx) after) handle
          = XlateResult.StaleHandle) := by
  have hwf := freeListInRange_applyCalls before _
    (freeListInRange_init handleBase entrySize initEntries) hbefore
  have hocc := slotOccupied_alloc_entry _ hwf
  have ht : table = (Tcl_HandleAlloc
      (applyCalls (Tcl_HandleTblInit handleBase entrySize initEntries) before)).1 := by
    rw [halloc]
  have hi : entryIdx = (Tcl_HandleAlloc
      (applyCalls (Tcl_HandleTblInit handleBase entrySize initEntries) before)).2.1 := by
    rw [halloc]
  have hhandle : handle = handleString table.handleBase entryIdx := by
    rw [ht, hi, handleBase_alloc, ← handle_alloc, halloc]
  rw [← ht, ← hi] at hocc
  constructor
  · have h1 := slotOccupied_applyCalls entryIdx during hlive table hocc
    rw [hhandle, ← handleBase_applyCalls during table, Tcl_HandleXlate_slotOccupied, if_pos h1]
  · intro hnever
    have h2 := slotOccupied_applyCalls_free entryIdx after _ hnever
      (slotOccupied_free_entry (applyCalls table during) entryIdx)
    have hb2 : (applyCalls (Tcl_HandleFree (applyCalls table during) entryIdx) after).handleBase
        = table.handleBase := by
      rw [handleBase_applyCalls]
      show (applyCalls table during).handleBase = table.handleBase
      exact handleBase_applyCalls during table
    rw [hhandle, ← hb2, Tcl_HandleXlate_slotOccupied, h2]
    rfl

theorem handle_live_until_freed_witness :
    validCalls (Tcl_HandleTblInit "reg".toList 4 0) [HandleCall.alloc] = true ∧
    (Tcl_HandleAlloc (applyCalls (Tcl_HandleTblInit "reg".toList 4 0) [HandleCall.alloc])).2
      = (1, "reg1".toList) ∧
    Tcl_HandleXlate
      (applyCalls
        (Tcl_HandleAlloc (applyCalls (Tcl_HandleTblInit "reg".toList 4 0) [HandleCall.alloc])).1
        [HandleCall.alloc, HandleCall.free 0])
      "reg1".toList = XlateResult.Entry 1 ∧
    Tcl_HandleXlate
      (applyCalls
        (Tcl_HandleFree
          (applyCalls
            (Tcl_HandleAlloc
              (applyCalls (Tcl_HandleTblInit "reg".toList 4 0) [HandleCall.alloc])).1
            [HandleCall.alloc, HandleCall.free 0])
          1)
        [HandleCall.free 2, HandleCall.alloc])
      "reg1".toList = XlateResult.StaleHandle :=
  ⟨by decide, by decide,
   (handle_live_until_freed "reg".toList 4 0 [HandleCall.alloc]
      [HandleCall.alloc, HandleCall.free 0] [HandleCall.free 2, HandleCall.alloc]
      (Tcl_HandleAlloc (applyCalls (Tcl_HandleTblInit "reg".toList 4 0) [HandleCall.alloc])).1
      1 "reg1".toList (by decide) (by decide) (by decide)).1,
   (handle_live_until_freed "reg".toList 4 0 [HandleCall.alloc]
      [HandleCall.alloc, HandleCall.free 0] [HandleCall.free 2, HandleCall.alloc]
      (Tcl_HandleAlloc (applyCalls (Tcl_HandleTblInit "reg".toList 4 0) [HandleCall.alloc])).1
      1 "reg1".toList (by decide) (by decide) (by decide)).2 (by decide)⟩

end TclX
